import Mathlib

/-!
Verification of the lazy-list library `functional` (package `functional`,
file `functional.go`).

The library represents a list as a chain of `Pair`s produced by forcing
`Thunk`s.  For the extensional claims about finite lists we use a pure
model: a finite, fully-forceable Go lazy list is represented by the Lean
list of its elements, and each Go operation is transcribed equation by
equation from its Go body.  Go runtime panics (nil-pointer dereference,
failed type assertion, `panic(...)`, `reflect` kind errors) are modelled
with `Except`: `Except.error` is an unrecovered panic (the package never
calls `recover`).

The memoizing evaluation engine (`force`, the memo table, thunk
identities) is modelled separately and explicitly, with thunk identities
and pair addresses as natural numbers, so that object identity and
invocation counts are expressible.
-/

namespace Functional

/-- The element type `I` (Go `interface{}`).  The values that occur in the
library's lists and tests: integers, strings, nested lists (`*Thunk`
elements), and the untyped `nil` returned by `Max`/`Min` on a kind
mismatch.  Distinct constructors model distinct Go dynamic types, so Go
interface equality `x != y` between two non-`*Thunk` values is constructor
plus value equality. -/
inductive Val where
  | vint : Int → Val
  | vstr : String → Val
  | vlist : List Val → Val
  | vnil : Val

/-- `Thunk.Length`: walks the whole list, counting one per forced pair. -/
def goLength : List Val → Nat
  | [] => 0
  | _ :: xs => goLength xs + 1

/-- `Thunk.At(n)`: forces cells `0..n`; if a forced pair is nil it runs
`panic("Index out of list.")`, otherwise it returns the head of cell `n`. -/
def goAt : List Val → Nat → Except String Val
  | [], _ => Except.error "Index out of list."
  | x :: _, 0 => Except.ok x
  | _ :: xs, n + 1 => goAt xs n

/-- `Thunk.Take(n)`: if `n > 0` and the forced pair is non-nil, yield its
head followed by `tail.Take(n-1)`; otherwise end the list. -/
def goTake : List Val → Nat → List Val
  | _, 0 => []
  | [], _ => []
  | x :: xs, n + 1 => x :: goTake xs n

/-- `Thunk.Drop(n)`: forces a pair; nil ends the list; while `n > 0` it
advances to the tail, and at `n = 0` it returns the current pair. -/
def goDrop : List Val → Nat → List Val
  | [], _ => []
  | x :: xs, 0 => x :: xs
  | _ :: xs, n + 1 => goDrop xs n

/-- `Thunk.Append(other)`: while the receiver has a pair, emit its head and
append the tail; once the receiver is exhausted, emit the other list's head
followed by `tail.Append(Empty)`. -/
def goAppend : List Val → List Val → List Val
  | x :: xs, other => x :: goAppend xs other
  | [], y :: ys => y :: goAppend ys []
  | [], [] => []
termination_by a b => a.length + b.length
decreasing_by
· simp
· simp

/-- `Thunk.Equals(other)`, with the panic behaviour of the Go body kept.
When the receiver's pair is nil: unequal lengths give `false`, both nil
gives `true`.  When the receiver's pair is non-nil but the other side's is
nil, the Go code reads `otherPair.head` from a nil `*Pair` and panics.
Heads that are both `*Thunk` are compared recursively as lists; a `*Thunk`
head against a non-`*Thunk` head is `false`; otherwise Go interface
equality `pair.head != otherPair.head` decides. -/
def goEquals : List Val → List Val → Except String Bool
  | [], [] => Except.ok true
  | [], _ :: _ => Except.ok false
  | _ :: _, [] => Except.error "runtime error: invalid memory address or nil pointer dereference"
  | x :: xs, y :: ys =>
    match x, y with
    | Val.vlist l1, Val.vlist l2 =>
      match goEquals l1 l2 with
      | Except.error e => Except.error e
      | Except.ok false => Except.ok false
      | Except.ok true => goEquals xs ys
    | Val.vlist _, _ => Except.ok false
    | Val.vint a, Val.vint b => if a = b then goEquals xs ys else Except.ok false
    | Val.vstr a, Val.vstr b => if a = b then goEquals xs ys else Except.ok false
    | Val.vnil, Val.vnil => goEquals xs ys
    | _, _ => Except.ok false
termination_by a _ => sizeOf a

/-- One step of the loop shared by `MapN`, `FilterN` and `ReduceN` over the
remaining input lists: force one pair from every list in order; the first
nil pair aborts (`none`); otherwise collect the heads and the tails. -/
def headsTails : List (List Val) → Option (List Val × List (List Val))
  | [] => some ([], [])
  | [] :: _ => none
  | (x :: xs) :: rest =>
    match headsTails rest with
    | none => none
    | some (hs, ts) => some (x :: hs, xs :: ts)

/-- `MapN(f, thunks...)` for at least one input list (the first input is
the explicit `l0`): force one pair from every input in index order; any nil
pair ends the result immediately; otherwise the next element is
`f(heads...)` and the rest is `MapN(f, tails...)`. -/
def goMapN (f : List Val → Val) : List Val → List (List Val) → List Val
  | [], _ => []
  | x :: xs, rest =>
    match headsTails rest with
    | none => []
    | some (hs, ts) => f (x :: hs) :: goMapN f xs ts

/-- `ZipN(thunks...)`: `MapN` with `f = SliceToList`, which rebuilds the
slice of heads as a list. -/
def goZipN : List Val → List (List Val) → List Val :=
  goMapN Val.vlist

/-- `ReduceN(f, acc, thunks...)` for at least one input list: force one
pair from every input in index order; any nil pair returns the accumulator;
otherwise recurse on the tails with `f(acc, heads...)`. -/
def goReduceN (f : Val → List Val → Val) : Val → List Val → List (List Val) → Val
  | acc, [], _ => acc
  | acc, x :: xs, rest =>
    match headsTails rest with
    | none => acc
    | some (hs, ts) => goReduceN f (f acc (x :: hs)) xs ts

/-- `Thunk.Reduce(f, initial)`: `ReduceN` specialised to one list; the
reducing function may panic (modelled in `Except`). -/
def goReduce (f : Val → Val → Except String Val) : Val → List Val → Except String Val
  | acc, [] => Except.ok acc
  | acc, x :: xs =>
    match f acc x with
    | Except.error e => Except.error e
    | Except.ok acc2 => goReduce f acc2 xs

/-- The `reflect.Kind` of a value as the `Max`/`Min` comparators see it:
`Int` for integers, `String` for strings, `Ptr` for `*Thunk` elements,
`Invalid` for `reflect.ValueOf(nil)`. -/
inductive RKind where
  | kInt
  | kString
  | kPtr
  | kInvalid
deriving DecidableEq

/-- `reflect.ValueOf(v).Kind()` for the modelled values. -/
def kindOf : Val → RKind
  | Val.vint _ => RKind.kInt
  | Val.vstr _ => RKind.kString
  | Val.vlist _ => RKind.kPtr
  | Val.vnil => RKind.kInvalid

/-- The comparator closure inside `Thunk.Max`: differing kinds yield `nil`;
equal `Int` kinds keep the larger by `accV.Int() >= xV.Int()`; equal
`String` kinds execute `accV.Float()` on a string-kind value, which is a
`reflect` panic; any other kind falls through to `return nil`. -/
def maxStep (acc x : Val) : Except String Val :=
  if kindOf acc ≠ kindOf x then Except.ok Val.vnil
  else
    match acc, x with
    | Val.vint a, Val.vint b => Except.ok (if b ≤ a then Val.vint a else Val.vint b)
    | Val.vstr _, Val.vstr _ =>
      Except.error "reflect: call of reflect.Value.Float on string Value"
    | _, _ => Except.ok Val.vnil

/-- The comparator closure inside `Thunk.Min`: as `maxStep` with the
integer comparison `accV.Int() <= xV.Int()`; the `String` case again calls
`accV.Float()` and panics. -/
def minStep (acc x : Val) : Except String Val :=
  if kindOf acc ≠ kindOf x then Except.ok Val.vnil
  else
    match acc, x with
    | Val.vint a, Val.vint b => Except.ok (if a ≤ b then Val.vint a else Val.vint b)
    | Val.vstr _, Val.vstr _ =>
      Except.error "reflect: call of reflect.Value.Float on string Value"
    | _, _ => Except.ok Val.vnil

/-- `Thunk.Max()`: `Reduce(maxStep, thunk.Head())`.  On an empty list
`Head()` dereferences the nil pair and panics; otherwise the fold runs over
the whole list starting from the first element. -/
def goMax : List Val → Except String Val
  | [] => Except.error "runtime error: invalid memory address or nil pointer dereference"
  | x :: xs => goReduce maxStep x (x :: xs)

/-- `Thunk.Min()`: `Reduce(minStep, thunk.Head())`. -/
def goMin : List Val → Except String Val
  | [] => Except.error "runtime error: invalid memory address or nil pointer dereference"
  | x :: xs => goReduce minStep x (x :: xs)

/-- `Thunk.Flatten()`, fully forced.  For each pair of the outer list the
Go body type-asserts the head to `*Thunk` (a non-list head panics) and
forces it; the forced `pair2` is dereferenced with no nil check, so an
empty sub-list is a nil-pointer panic; otherwise the result is `pair2`'s
head followed by `pair2.tail.Append(pair.tail.Flatten())`. -/
def goFlatten : List Val → Except String (List Val)
  | [] => Except.ok []
  | Val.vlist [] :: _ =>
    Except.error "runtime error: invalid memory address or nil pointer dereference"
  | Val.vlist (y :: ys) :: rest =>
    match goFlatten rest with
    | Except.error e => Except.error e
    | Except.ok r => Except.ok (y :: goAppend ys r)
  | _ :: _ => Except.error "interface conversion: interface is not *functional.Thunk"

/-! ### The force engine and the memoization cache (`force`, `memoTable`) -/

/-- A `*Pair` value as `force` returns it: the address of a heap-allocated
`Pair`, or the nil pointer (`none`).  Equality of addresses is object
identity. -/
abbrev PairPtr := Option Nat

/-- The package-level `memoTable : map[uint64]*Pair`, as an association
list from thunk identity to cached pointer; insertion at the front models
map overwrite. -/
abbrev MemoTable := List (Nat × PairPtr)

/-- `memoTable[id]` lookup. -/
def memoLookup : MemoTable → Nat → Option PairPtr
  | [], _ => none
  | (k, v) :: rest, tid => if k = tid then some v else memoLookup rest tid

/-- `force(thunk, ctx)` for a non-nil thunk of identity `tid` whose
`thunkFunc` is `f`.  The deferred computation `f` is modelled as a state
transformer over a world `ω` (its side effects and allocations).  With
memoization on, a cache hit returns the cached pointer untouched;
a miss runs `f` once and stores the returned pointer under `tid`.
With memoization off, `f` runs on every call. -/
def force {ι ω : Type} (memoOn : Bool) (tid : Nat) (f : ι → ω → ω × PairPtr)
    (ctx : ι) (tbl : MemoTable) (w : ω) : (MemoTable × ω) × PairPtr :=
  if memoOn then
    match memoLookup tbl tid with
    | some v => ((tbl, w), v)
    | none =>
      let r := f ctx w
      (((tid, r.2) :: tbl, r.1), r.2)
  else
    let r := f ctx w
    ((tbl, r.1), r.2)

/-- Instruments a deferred computation with an invocation counter (the
side-effecting counter of the spec's observable): every call increments
the first component of the world. -/
def counted {ι ω : Type} (g : ι → ω → ω × PairPtr) :
    ι → (Nat × ω) → (Nat × ω) × PairPtr :=
  fun c s => ((s.1 + 1, (g c s.2).1), (g c s.2).2)

/-- Repeats `force` (memoization on) `n` more times from an earlier
force's result, feeding each force the state the previous one returned. -/
def forceRep {ι ω : Type} (tid : Nat) (f : ι → ω → ω × PairPtr) (ctx : ι) :
    Nat → (MemoTable × ω) × PairPtr → (MemoTable × ω) × PairPtr
  | 0, s => s
  | n + 1, s => forceRep tid f ctx n (force true tid f ctx s.1.1 s.1.2)

/-! ### The thunk machine for the self-referential Fibonacci stream

A deep model of the thunk graph the test `TestFibo` builds with `Link`,
`DelayedLink` and `MapN`.  Thunks live on a heap keyed by their identity;
forcing consults and fills the memo table exactly as `force` does; heads
in this test are integers. -/

/-- A resolved `Pair` of the Fibonacci machine: integer head and the
identity of the tail thunk. -/
structure FPair where
  head : Int
  tail : Nat
deriving DecidableEq

/-- The `thunkFunc` bodies occurring in `TestFibo`:
* `emptyC` — the `Empty` thunk's function (always nil);
* `link h t` — `Link(h, t)`: returns `Pair{h, t}`;
* `fibTail h fib` — `DelayedLink(h, func() { return MapN(sum, fibo,
  fibo.Tail()) })` with `fibo` the thunk identity `fib`: at force time it
  forces `fibo`, takes the tail, and allocates the `MapN` thunk;
* `mapNSum t1 t2` — `MapN` with the summing function over exactly the two
  input thunks `t1, t2`: forces both in order, ends on a nil pair, else
  yields the sum of heads and allocates `MapN` over the tails;
* `takeC n src` — `Take(n)` applied to `src`: at force time, if `n > 0`
  and `src` forces to a pair, yields its head and allocates
  `Take(n-1)` of the tail. -/
inductive Code where
  | emptyC : Code
  | link : Int → Nat → Code
  | fibTail : Int → Nat → Code
  | mapNSum : Nat → Nat → Code
  | takeC : Nat → Nat → Code

/-- Machine state: the thunk-id counter (`nextId`), the heap of allocated
thunks, and the memo table (`memoTable`, id to cached pair-or-nil). -/
structure MState where
  counter : Nat
  heap : List (Nat × Code)
  memo : List (Nat × Option FPair)

/-- Association-list lookup keyed by thunk identity. -/
def lookupA {α : Type} : List (Nat × α) → Nat → Option α
  | [], _ => none
  | (k, v) :: rest, tid => if k = tid then some v else lookupA rest tid

/-- Allocate a fresh thunk (`&Thunk{nextId(), f}`): returns the new state
and the new identity. -/
def alloc (st : MState) (c : Code) : MState × Nat :=
  (⟨st.counter + 1, (st.counter, c) :: st.heap, st.memo⟩, st.counter)

/-- Memoized forcing of a thunk by identity, with fuel (the Go runtime has
none; enough fuel makes the model agree with any terminating Go run).
Mirrors `force` with `memo` on: hit returns the cached result; miss runs
the thunk's stored body and then stores the result under the identity.
`none` is fuel exhaustion, not a value of the program. -/
def forceT : Nat → MState → Nat → Option (MState × Option FPair)
  | 0, _, _ => none
  | fuel + 1, st, t =>
    match lookupA st.memo t with
    | some r => some (st, r)
    | none =>
      match lookupA st.heap t with
      | none => none
      | some Code.emptyC => some ({ st with memo := (t, none) :: st.memo }, none)
      | some (Code.link h tl) =>
        some ({ st with memo := (t, some ⟨h, tl⟩) :: st.memo }, some ⟨h, tl⟩)
      | some (Code.fibTail h fib) =>
        match forceT fuel st fib with
        | some (st2, some p) =>
          match alloc st2 (Code.mapNSum fib p.tail) with
          | (st3, m) =>
            some ({ st3 with memo := (t, some ⟨h, m⟩) :: st3.memo }, some ⟨h, m⟩)
        | _ => none
      | some (Code.mapNSum t1 t2) =>
        match forceT fuel st t1 with
        | some (st2, some p1) =>
          match forceT fuel st2 t2 with
          | some (st3, some p2) =>
            match alloc st3 (Code.mapNSum p1.tail p2.tail) with
            | (st4, m) =>
              some ({ st4 with memo := (t, some ⟨p1.head + p2.head, m⟩) :: st4.memo },
                some ⟨p1.head + p2.head, m⟩)
          | some (st3, none) => some ({ st3 with memo := (t, none) :: st3.memo }, none)
          | none => none
        | some (st2, none) => some ({ st2 with memo := (t, none) :: st2.memo }, none)
        | none => none
      | some (Code.takeC 0 _) => some ({ st with memo := (t, none) :: st.memo }, none)
      | some (Code.takeC (n + 1) src) =>
        match forceT fuel st src with
        | some (st2, some p) =>
          match alloc st2 (Code.takeC n p.tail) with
          | (st3, m) =>
            some ({ st3 with memo := (t, some ⟨p.head, m⟩) :: st3.memo }, some ⟨p.head, m⟩)
        | some (st2, none) => some ({ st2 with memo := (t, none) :: st2.memo }, none)
        | none => none

/-- `ToSlice` on the machine: force the thunk; a nil pair ends the slice,
otherwise prepend the head and continue on the tail. -/
def toSliceT : Nat → MState → Nat → Option (MState × List Int)
  | 0, _, _ => none
  | fuel + 1, st, t =>
    match forceT (fuel + 1) st t with
    | none => none
    | some (st2, none) => some (st2, [])
    | some (st2, some p) =>
      match toSliceT fuel st2 p.tail with
      | none => none
      | some (st3, l) => some (st3, p.head :: l)

/-- The state `TestFibo` builds before anything is forced, mirroring
`fibo = Link(1, DelayedLink(1, func() *Thunk { return MapN(sum, fibo,
fibo.Tail()) }))` followed by `fibo.Take(5)`:
thunk 0 is the `DelayedLink` (its closure refers to `fibo` = thunk 1),
thunk 1 is the outer `Link(1, thunk 0)`, and thunk 2 is `Take(5)` of
thunk 1.  Construction only allocates; the memo table is empty because no
thunk has been forced. -/
def fiboState : MState :=
  ⟨3, [(0, Code.fibTail 1 1), (1, Code.link 1 0), (2, Code.takeC 5 1)], []⟩

/-- `totalSum` from `TestReduceN`: adds every head to the accumulator,
`acc = acc.(int) + x.(int)` for each head in order. -/
def totalSum (acc : Val) (hs : List Val) : Val :=
  hs.foldl
    (fun a x =>
      match a, x with
      | Val.vint a, Val.vint b => Val.vint (a + b)
      | _, _ => Val.vnil) acc

/-! ### Helper lemmas about the pure list model -/

theorem goLength_eq (l : List Val) : goLength l = l.length := by
  induction l with
  | nil => rfl
  | cons x xs ih => simp [goLength, ih]

theorem goTake_eq (l : List Val) (n : Nat) : goTake l n = l.take n := by
  induction l generalizing n with
  | nil => cases n <;> rfl
  | cons x xs ih => cases n with
    | zero => rfl
    | succ n => simp [goTake, ih]

theorem goAppend_nil (l : List Val) : goAppend l [] = l := by
  induction l with
  | nil => simp [goAppend]
  | cons x xs ih => simp [goAppend, ih]

theorem goAppend_eq (l1 l2 : List Val) : goAppend l1 l2 = l1 ++ l2 := by
  induction l1 with
  | nil =>
    cases l2 with
    | nil => simp [goAppend]
    | cons y ys => simp [goAppend, goAppend_nil]
  | cons x xs ih => simp [goAppend, ih]

theorem goTake_append_goDrop (l : List Val) (n : Nat) :
    goTake l n ++ goDrop l n = l := by
  induction l generalizing n with
  | nil => cases n <;> rfl
  | cons x xs ih => cases n with
    | zero => rfl
    | succ n => simp [goTake, goDrop, ih]

theorem goEquals_refl : (l : List Val) → goEquals l l = Except.ok true
  | [] => by simp [goEquals]
  | Val.vint a :: xs => by simp [goEquals, goEquals_refl xs]
  | Val.vstr s :: xs => by simp [goEquals, goEquals_refl xs]
  | Val.vnil :: xs => by simp [goEquals, goEquals_refl xs]
  | Val.vlist m :: xs => by
    simp [goEquals, goEquals_refl m, goEquals_refl xs]
termination_by l => sizeOf l

/-- The minimum of the lengths of the input lists (first input `l0`,
further inputs `rest`). -/
def minLens (l0 : List Val) (rest : List (List Val)) : Nat :=
  rest.foldr (fun l m => Nat.min l.length m) l0.length

theorem minLens_nil_left (rest : List (List Val)) : minLens [] rest = 0 := by
  induction rest with
  | nil => rfl
  | cons r rs ih => simp [minLens] at ih ⊢; simp [ih]

theorem minLens_eq_zero_of_mem (l0 : List Val) (rest : List (List Val))
    (h : [] ∈ rest) : minLens l0 rest = 0 := by
  induction rest with
  | nil => cases h
  | cons r rs ih =>
    rcases List.mem_cons.mp h with h1 | h2
    · subst h1; simp [minLens]
    · simp [minLens] at ih ⊢; simp [ih h2]

theorem headsTails_none_mem (rest : List (List Val))
    (h : headsTails rest = none) : [] ∈ rest := by
  induction rest with
  | nil => simp [headsTails] at h
  | cons r rs ih =>
    cases r with
    | nil => exact List.mem_cons_self _ _
    | cons x xs =>
      rw [headsTails] at h
      cases hrs : headsTails rs with
      | none => exact List.mem_cons_of_mem _ (ih hrs)
      | some pr => rw [hrs] at h; cases h

theorem headsTails_some_spec (rest : List (List Val)) (hs : List Val)
    (ts : List (List Val)) (h : headsTails rest = some (hs, ts)) :
    [] ∉ rest ∧ hs = rest.map (fun l => l.getD 0 Val.vnil) ∧
      ts = rest.map List.tail := by
  induction rest generalizing hs ts with
  | nil =>
    rw [headsTails] at h
    cases h
    simp
  | cons r rs ih =>
    cases r with
    | nil => rw [headsTails] at h; cases h
    | cons x xs =>
      rw [headsTails] at h
      cases hrs : headsTails rs with
      | none => rw [hrs] at h; cases h
      | some pr =>
        obtain ⟨hs', ts'⟩ := pr
        rw [hrs] at h
        cases h
        obtain ⟨h1, h2, h3⟩ := ih hs' ts' hrs
        refine ⟨?_, ?_, ?_⟩
        · intro hm
          rcases List.mem_cons.mp hm with hc | hc
          · cases hc
          · exact h1 hc
        · simp [h2]
        · simp [h3]

theorem minLens_succ (x : Val) (xs : List Val) (rest : List (List Val))
    (h : [] ∉ rest) :
    minLens (x :: xs) rest = minLens xs (rest.map List.tail) + 1 := by
  induction rest with
  | nil => simp [minLens]
  | cons r rs ih =>
    have hr : r ≠ [] := fun he => h (by simp [he])
    have hrs : [] ∉ rs := fun hm => h (List.mem_cons_of_mem _ hm)
    obtain ⟨a, as, rfl⟩ := List.exists_cons_of_ne_nil hr
    have ih2 := ih hrs
    simp [minLens] at ih2 ⊢
    rw [ih2]
    exact Nat.succ_min_succ _ _

theorem getD_succ_shift (rest : List (List Val)) (h : [] ∉ rest) (k : Nat) :
    rest.map (fun l => l.getD (k + 1) Val.vnil) =
      (rest.map List.tail).map (fun l => l.getD k Val.vnil) := by
  rw [List.map_map]
  refine List.map_congr_left ?_
  intro l hl
  cases l with
  | nil => exact absurd hl h
  | cons a as => simp

/-! ### Helper lemmas about the force engine -/

theorem force_cache_hit {ι ω : Type} (tid : Nat) (f : ι → ω → ω × PairPtr)
    (ctx : ι) (tbl : MemoTable) (w : ω) (v : PairPtr)
    (h : memoLookup tbl tid = some v) :
    force true tid f ctx tbl w = ((tbl, w), v) := by
  simp [force, h]

theorem forceRep_fixed {ι ω : Type} (tid : Nat) (f : ι → ω → ω × PairPtr)
    (ctx : ι) (n : Nat) (s : (MemoTable × ω) × PairPtr)
    (h : memoLookup s.1.1 tid = some s.2) :
    forceRep tid f ctx n s = s := by
  induction n with
  | zero => rfl
  | succ n ih =>
    rw [forceRep, force_cache_hit tid f ctx s.1.1 s.1.2 s.2 h]
    exact ih

theorem headsTails_append_nil (r1 r2 : List (List Val)) :
    headsTails (r1 ++ [] :: r2) = none := by
  induction r1 with
  | nil => rfl
  | cons r rs ih =>
    cases r with
    | nil => rfl
    | cons x xs => rw [List.cons_append, headsTails, ih]

/-! ### The claims -/

/-- C1.  With memoization enabled, forcing a Thunk whose identity is not
yet in the memo table invokes its deferred computation exactly once (the
instrumenting counter reads 1 afterwards), and every later force of the
same identity — any number of them, with any context — returns the very
pointer the first force returned and leaves the memo table, the world and
the counter unchanged, so the deferred computation is never re-invoked. -/
theorem force_memoized_invokes_once {ι ω : Type} (g : ι → ω → ω × PairPtr)
    (tid : Nat) (ctx1 ctx2 : ι) (tbl : MemoTable) (w : ω) (n : Nat)
    (h : memoLookup tbl tid = none) :
    (force true tid (counted g) ctx1 tbl (0, w)).1.2.1 = 1 ∧
    forceRep tid (counted g) ctx2 n
        (force true tid (counted g) ctx1 tbl (0, w)) =
      force true tid (counted g) ctx1 tbl (0, w) := by
  constructor
  · simp [force, h, counted]
  · refine forceRep_fixed tid (counted g) ctx2 n _ ?_
    simp [force, h, counted, memoLookup]

/-- Deferred computation used to witness C1: allocates the pair at
address 7 and performs no other effect. -/
def gW : Unit → Unit → Unit × PairPtr :=
  fun _ _ => ((), some 7)

/-- Witness for C1 at a concrete thunk (identity 0, empty memo table,
three repeat forces). -/
theorem force_memoized_invokes_once_witness :
    memoLookup [] 0 = none ∧
    ((force true 0 (counted gW) () [] (0, ())).1.2.1 = 1 ∧
      forceRep 0 (counted gW) () 3
          (force true 0 (counted gW) () [] (0, ())) =
        force true 0 (counted gW) () [] (0, ())) :=
  ⟨rfl, force_memoized_invokes_once gW 0 () () [] () 3 rfl⟩

/-- C2.  The self-referential Fibonacci stream of `TestFibo`,
`S = Link(1, DelayedLink(1, fun () => MapN(+, S, S.Tail())))`, is
constructed purely by allocation — its memo table is empty, nothing has
been forced — and fully forcing `S.Take(5)` yields `[1, 1, 2, 3, 5]`. -/
theorem fibo_take_five :
    fiboState.memo = [] ∧
    (toSliceT 12 fiboState 2).map Prod.snd = some [1, 1, 2, 3, 5] :=
  ⟨rfl, rfl⟩

/-- C3.  `Equals` on finite lists of different lengths: when the receiver
is the shorter list it returns `false`, but when the receiver is the
longer list the Go body reads `otherPair.head` from the nil `*Pair` of
the exhausted argument and panics instead of returning `false`. -/
theorem equals_length_mismatch_panics :
    goEquals [Val.vint 1, Val.vint 2] [Val.vint 1] =
      Except.error "runtime error: invalid memory address or nil pointer dereference" ∧
    goEquals [Val.vint 1] [Val.vint 1, Val.vint 2] = Except.ok false := by
  constructor
  · simp [goEquals]
  · simp [goEquals]

/-- C4.  `Max`/`Min` on a non-empty all-string list do not return the
maximum/minimum element: the `reflect.String` case of both comparators
calls `accV.Float()` on a string-kind value, which panics.  On all-integer
lists the comparison works as claimed. -/
theorem max_min_string_panics :
    goMax [Val.vstr "a", Val.vstr "b"] =
      Except.error "reflect: call of reflect.Value.Float on string Value" ∧
    goMin [Val.vstr "a", Val.vstr "b"] =
      Except.error "reflect: call of reflect.Value.Float on string Value" ∧
    goMax [Val.vint 1, Val.vint 3, Val.vint 5, Val.vint 4, Val.vint 2] =
      Except.ok (Val.vint 5) ∧
    goMin [Val.vint 3, Val.vint 2, Val.vint 5, Val.vint 1, Val.vint 2] =
      Except.ok (Val.vint 1) :=
  ⟨rfl, rfl, rfl, rfl⟩

/-- C10.  Forcing `L(L(), L(1)).Flatten()` dereferences the nil `*Pair`
produced by forcing the empty first sub-list and panics, instead of
skipping the empty sub-list. -/
theorem flatten_empty_sublist_panics :
    goFlatten [Val.vlist [], Val.vlist [Val.vint 1]] =
      Except.error "runtime error: invalid memory address or nil pointer dereference" :=
  rfl

/-- C5.  For every `f` and every non-empty tuple of input lists (first
input `l0`, further inputs `rest`), `MapN` produces exactly
`min(lengths)` elements, element `k` being `f` applied to the `k`-th
heads of all inputs in order; and `ZipN(List(1,2,3), List(4,5))` has
exactly 2 elements. -/
theorem mapN_shortest_input :
    (∀ (f : List Val → Val) (l0 : List Val) (rest : List (List Val)),
      goMapN f l0 rest =
        (List.range (minLens l0 rest)).map
          (fun k => f ((l0 :: rest).map (fun l => l.getD k Val.vnil)))) ∧
    (goZipN [Val.vint 1, Val.vint 2, Val.vint 3]
        [[Val.vint 4, Val.vint 5]]).length = 2 := by
  constructor
  · intro f l0
    induction l0 with
    | nil => intro rest; simp [goMapN, minLens_nil_left]
    | cons x xs ih =>
      intro rest
      cases hrs : headsTails rest with
      | none =>
        have hm := headsTails_none_mem rest hrs
        simp only [goMapN, hrs]
        simp [minLens_eq_zero_of_mem _ _ hm]
      | some pr =>
        obtain ⟨hs, ts⟩ := pr
        obtain ⟨hnm, hhs, hts⟩ := headsTails_some_spec rest hs ts hrs
        simp only [goMapN, hrs]
        rw [ih ts, minLens_succ x xs rest hnm, ← hts,
          List.range_succ_eq_map, List.map_cons, List.map_map]
        congr 1
        · rw [List.map_cons, List.getD_cons_zero, ← hhs]
        · refine List.map_congr_left ?_
          intro k _
          simp only [Function.comp, Nat.succ_eq_add_one]
          conv_rhs => rw [List.map_cons, List.getD_cons_succ,
            getD_succ_shift rest hnm k]
          rw [hts, List.map_cons]
  · rfl

/-- C6.  `ReduceN` is an eager left fold in lockstep that returns the
accumulator as soon as any input list is exhausted — whether the first
input ends or any later input (at any position) ends — and in particular
the `TestReduceN` fold with addition over `[7,8,9]`, `[4,5,6]` and any
list starting `1, 2, 3` (the first three elements of the increasing
stream) returns 45, never touching the stream past its third element. -/
theorem reduceN_stops_at_exhausted :
    (∀ (f : Val → List Val → Val) (acc : Val) (rest : List (List Val)),
      goReduceN f acc [] rest = acc) ∧
    (∀ (f : Val → List Val → Val) (acc x : Val) (xs : List Val)
        (r1 r2 : List (List Val)),
      goReduceN f acc (x :: xs) (r1 ++ [] :: r2) = acc) ∧
    (∀ suffix : List Val,
      goReduceN totalSum (Val.vint 0)
          [Val.vint 7, Val.vint 8, Val.vint 9]
          [[Val.vint 4, Val.vint 5, Val.vint 6],
            Val.vint 1 :: Val.vint 2 :: Val.vint 3 :: suffix] =
        Val.vint 45) := by
  refine ⟨fun f acc rest => rfl, ?_, fun suffix => rfl⟩
  intro f acc x xs r1 r2
  rw [goReduceN, headsTails_append_nil]

/-- C7.  For every finite list and every `n`,
`L.Take(n).Length() = min(n, L.Length())`. -/
theorem take_length_min (l : List Val) (n : Nat) :
    goLength (goTake l n) = Nat.min n (goLength l) := by
  rw [goLength_eq, goTake_eq, goLength_eq]
  exact List.length_take n l

/-- C8.  Take/drop partition law: for every finite list and every `n`,
`L.Take(n).Append(L.Drop(n))` Equals `L` (and the traversal completes
without the length-mismatch panic, the lengths being equal). -/
theorem take_drop_partition (l : List Val) (n : Nat) :
    goEquals (goAppend (goTake l n) (goDrop l n)) l = Except.ok true := by
  rw [goAppend_eq, goTake_append_goDrop]
  exact goEquals_refl l

/-- C9.  `At(n)` returns the element at position `n` when the list has at
least `n + 1` elements, and otherwise runs `panic("Index out of list.")`,
which propagates to the caller unrecovered (the package never calls
`recover`). -/
theorem at_spec (l : List Val) (n : Nat) :
    goAt l n =
      if n < goLength l then Except.ok (l.getD n Val.vnil)
      else Except.error "Index out of list." := by
  induction l generalizing n with
  | nil => simp [goAt, goLength]
  | cons x xs ih =>
    cases n with
    | zero => simp [goAt, goLength]
    | succ n =>
      rw [goAt, ih]
      by_cases h : n < goLength xs
      · rw [if_pos h, if_pos (by simpa [goLength, Nat.succ_lt_succ_iff] using h)]
        simp
      · rw [if_neg h, if_neg (by simpa [goLength, Nat.succ_lt_succ_iff] using h)]

end Functional
